import Mathlib

/-!
Verification of the core text-processing routines of the membrane-ageing
analysis pipeline: the JSON cleaner (paper-id standardization, text
cleaning, keyword cleaning, reference validation) and the section
processor (layout-aware text reconstruction, heading detection, section
span extraction and validation).

All definitions are shallow embeddings of the Python source in
src/pre_processing/json_cleaner.py and
src/pre_processing/section_processor.py, working over explicit character
lists.  Python's character classes are modelled over their ASCII
fragment (the regexes in the source act on the word, digit and
whitespace classes).
-/

set_option maxRecDepth 100000

namespace MembraneAgeing

/-! ### Character classes (ASCII fragment of the Python classes) -/

/-- Whitespace characters recognised by the regex class backslash-s and
by the Python strip and split methods, restricted to ASCII. -/
def isPyWs (c : Char) : Bool :=
  c = ' ' || c = '\t' || c = '\n' || c = '\r' || c = Char.ofNat 11 || c = Char.ofNat 12

/-- Decimal digit test, the regex class backslash-d. -/
def isDigitC (c : Char) : Bool :=
  '0' ≤ c && c ≤ '9'

/-- ASCII letter test. -/
def isAlphaC (c : Char) : Bool :=
  ('a' ≤ c && c ≤ 'z') || ('A' ≤ c && c ≤ 'Z')

/-- Word characters, the regex class backslash-w (ASCII fragment):
letters, digits and the underscore. -/
def isWordChar (c : Char) : Bool :=
  isAlphaC c || isDigitC c || c = '_'

/-- ASCII lowercasing, the behaviour of the Python lower method on
ASCII input. -/
def lowerC (c : Char) : Char :=
  if 'A' ≤ c && c ≤ 'Z' then Char.ofNat (c.toNat + 32) else c

/-! ### Generic list-of-characters helpers -/

/-- Length of the leading whitespace run. -/
def wsCount : List Char → Nat
  | [] => 0
  | c :: rest => if isPyWs c then wsCount rest + 1 else 0

/-- Drop the leading whitespace run, the first half of the Python strip
method. -/
def dropLeadingWs (l : List Char) : List Char :=
  l.dropWhile (fun c => isPyWs c)

/-- Drop the trailing whitespace run, the second half of the Python
strip method. -/
def dropTrailingWs : List Char → List Char
  | [] => []
  | c :: rest =>
    let r := dropTrailingWs rest
    if r.isEmpty && isPyWs c then [] else c :: r

/-- Python str.strip: remove whitespace from both ends. -/
def stripL (l : List Char) : List Char :=
  dropTrailingWs (dropLeadingWs l)

/-- Worker of the whitespace-collapsing substitution.  The flag
records whether the previous character belonged to a whitespace run
already replaced by one space. -/
def collapseWsAux : Bool → List Char → List Char
  | _, [] => []
  | inWs, c :: rest =>
    if isPyWs c then
      if inWs then collapseWsAux true rest
      else ' ' :: collapseWsAux true rest
    else c :: collapseWsAux false rest

/-- Replace every maximal whitespace run by a single space: the
substitution re.sub of one-or-more whitespace with a single space. -/
def collapseWs (l : List Char) : List Char :=
  collapseWsAux false l

/-- Substring test: does the needle occur contiguously in the haystack?
This is the Python infix containment test on strings. -/
def containsSub (needle : List Char) : List Char → Bool
  | [] => needle.isEmpty
  | c :: rest => needle.isPrefixOf (c :: rest) || containsSub needle rest

/-- Split on a single delimiter character, keeping empty pieces, the
Python split method with an explicit separator. -/
def splitOnC (sep : Char) : List Char → List (List Char)
  | [] => [[]]
  | c :: rest =>
    let r := splitOnC sep rest
    if c = sep then [] :: r
    else match r with
      | [] => [[c]]
      | piece :: more => (c :: piece) :: more

/-- Join a list of character lists with a separator list between
consecutive entries, the Python join method. -/
def joinWith (sep : List Char) : List (List Char) → List Char
  | [] => []
  | [x] => x
  | x :: y :: rest => x ++ sep ++ joinWith sep (y :: rest)

/-- Python str.split with no argument: the maximal whitespace-free
words, empty pieces discarded. -/
def wordsOf (l : List Char) : List (List Char) :=
  ((splitOnC ' ' (collapseWs l)).filter (fun w => !w.isEmpty))

/-! ### JSONCleaner: paper-id standardization
Embedding of JSONCleaner._standardize_paper_id
(src/pre_processing/json_cleaner.py, lines 39-44): first the
substitution re.sub removing every character that is not a word
character, whitespace or hyphen, then lower(), then replace of the
space character by an underscore. -/

/-- Characters kept by the first substitution of _standardize_paper_id:
the class of word characters, whitespace and the hyphen. -/
def paperIdKeep (c : Char) : Bool :=
  isWordChar c || isPyWs c || c = '-'

/-- Embedding of JSONCleaner._standardize_paper_id on character lists. -/
def standardizePaperIdL (l : List Char) : List Char :=
  ((l.filter paperIdKeep).map lowerC).map (fun c => if c = ' ' then '_' else c)

/-- Embedding of JSONCleaner._standardize_paper_id. -/
def standardizePaperId (s : String) : String :=
  ⟨standardizePaperIdL s.data⟩

/-! ### JSONCleaner: text cleaning
Embedding of JSONCleaner._clean_text
(src/pre_processing/json_cleaner.py, lines 203-215): an empty input is
returned unchanged; otherwise whitespace runs are collapsed to a single
space, characters outside the allow-set are removed, the two quote
replacements on line 213 are applied (each replaces the straight double
quote by itself, so each is the identity substitution written in the
source), and the result is stripped. -/

/-- Characters kept by the second substitution of _clean_text: word
characters, whitespace, and the punctuation .,;:()-[] . -/
def cleanTextKeep (c : Char) : Bool :=
  isWordChar c || isPyWs c || c = '.' || c = ',' || c = ';' || c = ':' ||
    c = '(' || c = ')' || c = '-' || c = '[' || c = ']'

/-- The two replace calls on line 213 of the source: each replaces the
straight double-quote character with itself. -/
def replaceQuotes (l : List Char) : List Char :=
  (l.map (fun c => if c = '"' then '"' else c)).map (fun c => if c = '"' then '"' else c)

/-- Embedding of JSONCleaner._clean_text on character lists. -/
def cleanTextL (l : List Char) : List Char :=
  if l.isEmpty then []
  else stripL (replaceQuotes ((collapseWs l).filter cleanTextKeep))

/-- Embedding of JSONCleaner._clean_text. -/
def cleanText (s : String) : String :=
  ⟨cleanTextL s.data⟩

/-! ### JSONCleaner: keyword cleaning
Embedding of JSONCleaner._clean_keywords
(src/pre_processing/json_cleaner.py, lines 74-116). -/

/-- Strip one trailing semicolon, comma or period: the substitution
re.sub of the class semicolon-comma-period anchored at end of input. -/
def dropTrailingPunct (l : List Char) : List Char :=
  match l.getLast? with
  | some c => if c = ';' || c = ',' || c = '.' then l.dropLast else l
  | none => l

/-- Strip one leading article followed by whitespace: the substitution
re.sub of the group the-a-an followed by one-or-more whitespace,
anchored at the start.  Alternatives are tried in the order written in
the source. -/
def dropArticle (l : List Char) : List Char :=
  let tryArt := fun (art : List Char) (l : List Char) =>
    if art.isPrefixOf l && wsCount (l.drop art.length) > 0 then
      some (dropLeadingWs (l.drop art.length))
    else none
  match tryArt ['t', 'h', 'e'] l with
  | some r => r
  | none => match tryArt ['a'] l with
    | some r => r
    | none => match tryArt ['a', 'n'] l with
      | some r => r
      | none => l

/-- Per-keyword pipeline from the loop body of _clean_keywords: strip,
lowercase, drop one trailing punctuation mark, collapse internal
whitespace via split-join, drop one leading article. -/
def cleanKeywordItemL (l : List Char) : List Char :=
  dropArticle (joinWith [' '] (wordsOf (dropTrailingPunct ((stripL l).map lowerC))))

/-- Embedding of the per-keyword pipeline on strings. -/
def cleanKeywordItem (s : String) : String :=
  ⟨cleanKeywordItemL s.data⟩

/-- The duplicate-removal comprehension at the end of _clean_keywords:
keep an item when it has not been seen before, threading the seen set. -/
def dedupSeen (seen : List String) : List String → List String
  | [] => []
  | x :: xs => if x ∈ seen then dedupSeen seen xs else x :: dedupSeen (x :: seen) xs

/-- First-seen duplicate removal stated structurally: keep the head and
remove its later occurrences.  This is the specification-side
formulation of no-duplicates with first-seen order. -/
def dedupFS : List String → List String
  | [] => []
  | x :: xs => x :: dedupFS (xs.filter (fun y => y ≠ x))
  termination_by l => l.length
  decreasing_by
    exact Nat.lt_succ_of_le (List.length_filter_le _ _)

/-- Embedding of JSONCleaner._clean_keywords on a list of keyword
strings (every element a string, as the isinstance guard admits). -/
def cleanKeywordsList (kws : List String) : List String :=
  if kws.isEmpty then []
  else
    dedupSeen []
      ((kws.map cleanKeywordItem).filter (fun s => !s.isEmpty && s.length > 1))

/-- Embedding of JSONCleaner._clean_keywords on a single delimited
string: split on semicolons when one is present, otherwise on commas,
then run the list pipeline. -/
def cleanKeywordsString (s : String) : List String :=
  if s.isEmpty then []
  else
    let sep := if s.data.contains ';' then ';' else ','
    cleanKeywordsList ((splitOnC sep s.data).map (fun l => (⟨l⟩ : String)))

/-! ### JSONCleaner: reference validation
Embedding of JSONCleaner._validate_references
(src/pre_processing/json_cleaner.py, lines 280-308). -/

/-- Structured reference record as produced by _parse_reference: text,
optional DOI and optional year string.  A Python None value is the none
constructor; an empty string is some of the empty string. -/
structure RefRec where
  text : String
  doi : Option String
  year : Option String
deriving DecidableEq, Repr

/-- Python int() applied to a string, modelled on its ASCII behaviour:
surrounding whitespace is ignored, an optional single sign precedes a
nonempty digit run; anything else raises ValueError, modelled as none. -/
def pyToInt (s : String) : Option Int :=
  let core := stripL s.data
  let (sign, digits) :=
    match core with
    | '+' :: rest => ((1 : Int), rest)
    | '-' :: rest => ((-1 : Int), rest)
    | other => ((1 : Int), other)
  if digits.isEmpty || !digits.all isDigitC then none
  else some (sign * (digits.foldl (fun acc c => acc * 10 + ((c.toNat - '0'.toNat : Nat) : Int)) 0))

/-- Year adjustment applied to one retained reference by
_validate_references: a truthy year is coerced with int() and nulled
when the coercion fails or the value lies outside 1900..2025. -/
def adjustYear (r : RefRec) : RefRec :=
  match r.year with
  | none => r
  | some s =>
    if s.isEmpty then r
    else match pyToInt s with
      | none => { r with year := none }
      | some y => if 1900 ≤ y ∧ y ≤ 2025 then r else { r with year := none }

/-- Embedding of the loop of JSONCleaner._validate_references: skip
records with falsy text, adjust the year of the others, accumulate in
order. -/
def validateReferences : List RefRec → List RefRec
  | [] => []
  | r :: rest =>
    if r.text.isEmpty then validateReferences rest
    else adjustYear r :: validateReferences rest

/-! ### SectionProcessor: layout blocks and column grouping
Embedding of SectionProcessor._process_column_blocks and
SectionProcessor._reconstruct_document_text
(src/pre_processing/section_processor.py, lines 71-113).  Bounding-box
coordinates are modelled as integers. -/

/-- A raw line of a raw block: its list of span texts. -/
structure RawLine where
  spans : List String
deriving DecidableEq, Repr

/-- A raw page block from the fragment source: the first two bounding
box coordinates and, when the block is textual, its lines.  A block
without lines models a Python block dict with no lines key. -/
structure RawBlock where
  x0 : Int
  y0 : Int
  lines : Option (List RawLine)
deriving DecidableEq, Repr

/-- A processed block as built inside _process_column_blocks: the
joined text, the bounding-box coordinates and the page number. -/
structure PBlock where
  text : String
  x0 : Int
  y0 : Int
  page : Nat
deriving DecidableEq, Repr

/-- Join all span texts of all lines of a block with single spaces, the
space-join generator expression in _process_column_blocks. -/
def joinSpans (lines : List RawLine) : String :=
  ⟨joinWith [' '] ((lines.flatMap (fun ln => ln.spans)).map (fun s => s.data))⟩

/-- Sort key of the per-page block sort in _process_column_blocks:
horizontal start first, then vertical start, as a Boolean relation. -/
def xyLeB (a b : RawBlock) : Bool :=
  a.x0 < b.x0 || (a.x0 = b.x0 && a.y0 ≤ b.y0)

/-- The per-page block sort relation as a proposition. -/
def xyLe (a b : RawBlock) : Prop :=
  xyLeB a b = true

instance : DecidableRel xyLe := fun a b => instDecidableEqBool (xyLeB a b) true

/-- Column threshold from _process_column_blocks: approximate width
threshold for columns. -/
def columnWidth : Nat := 300

/-- State of the column-grouping loop: emitted blocks, current column,
current column x-origin. -/
structure ColState where
  processed : List PBlock
  current : List PBlock
  currentX : Int
deriving Repr

/-- One iteration of the loop of _process_column_blocks: skip blocks
without lines; flush the current column when the horizontal start
differs from the current origin by strictly more than the threshold;
append the block to the current column when its joined text is not
blank. -/
def colStep (page : Nat) (st : ColState) (b : RawBlock) : ColState :=
  match b.lines with
  | none => st
  | some ls =>
    let st :=
      if (b.x0 - st.currentX).natAbs > columnWidth then
        { processed := st.processed ++ st.current, current := [], currentX := b.x0 }
      else st
    let t := joinSpans ls
    if (stripL t.data).isEmpty then st
    else { st with current := st.current ++ [⟨t, b.x0, b.y0, page⟩] }

/-- Embedding of SectionProcessor._process_column_blocks: sort by
column then vertical position, run the grouping loop from origin zero,
and append the final column. -/
def processColumnBlocks (blocks : List RawBlock) (page : Nat) : List PBlock :=
  let st := (List.insertionSort xyLe blocks).foldl (colStep page) ⟨[], [], 0⟩
  st.processed ++ st.current

/-- Variant of the grouping loop that records the ephemeral column
structure of _process_column_blocks instead of flattening it: each
flush closes the current column, and a nonempty final column is closed
at the end, exactly as the processed list is extended in the source. -/
def colStepCols (page : Nat) (st : List (List PBlock) × List PBlock × Int) (b : RawBlock) :
    List (List PBlock) × List PBlock × Int :=
  match b.lines with
  | none => st
  | some ls =>
    let (cols, cur, cx) := st
    let (cols, cur, cx) :=
      if (b.x0 - cx).natAbs > columnWidth then
        (if cur.isEmpty then cols else cols ++ [cur], [], b.x0)
      else (cols, cur, cx)
    let t := joinSpans ls
    if (stripL t.data).isEmpty then (cols, cur, cx)
    else (cols, cur ++ [(⟨t, b.x0, b.y0, page⟩ : PBlock)], cx)

/-- Column grouping of _process_column_blocks with the ephemeral
columns kept visible. -/
def processColumnBlocksCols (blocks : List RawBlock) (page : Nat) : List (List PBlock) :=
  let st := (List.insertionSort xyLe blocks).foldl (colStepCols page) ([], [], 0)
  if st.2.1.isEmpty then st.1 else st.1 ++ [st.2.1]

/-- Sort key of _reconstruct_document_text: page first, then vertical
start, as a Boolean relation. -/
def pageYLeB (a b : PBlock) : Bool :=
  a.page < b.page || (a.page = b.page && a.y0 ≤ b.y0)

/-- The reconstruction sort relation as a proposition. -/
def pageYLe (a b : PBlock) : Prop :=
  pageYLeB a b = true

instance : DecidableRel pageYLe := fun a b => instDecidableEqBool (pageYLeB a b) true

/-- Embedding of SectionProcessor._reconstruct_document_text: sort all
retained blocks by page and vertical start with the stable list sort
and join their texts with newlines. -/
def reconstructDocumentText (blocks : List PBlock) : String :=
  ⟨joinWith ['\n'] (((List.insertionSort pageYLe blocks).map (fun b => b.text.data)))⟩

/-- The block-collection loop of extract_sections: run the column
grouping on every page in order with its page number. -/
def collectAllBlocks (pages : List (List RawBlock)) : List PBlock :=
  pages.enum.flatMap (fun pg => processColumnBlocks pg.2 pg.1)

/-- Full text reconstruction of extract_sections: collect the blocks of
every page through column grouping, then reconstruct the linear text. -/
def pipelineText (pages : List (List RawBlock)) : String :=
  reconstructDocumentText (collectAllBlocks pages)

/-- The retained processed block of one raw block, when the block has
lines and its span-joined text is not blank. -/
def gBlock (page : Nat) (b : RawBlock) : Option PBlock :=
  match b.lines with
  | none => none
  | some ls =>
    let t := joinSpans ls
    if (stripL t.data).isEmpty then none
    else some ⟨t, b.x0, b.y0, page⟩

/-- Specification-side simple collection: keep every block that has
lines and a non-blank span-joined text, in input order, with its page
number. -/
def simpleCollect (pages : List (List RawBlock)) : List PBlock :=
  pages.enum.flatMap (fun pg => pg.2.filterMap (gBlock pg.1))

/-- Specification-side text: simple collection followed by the same
page-and-vertical sort and newline join. -/
def simpleText (pages : List (List RawBlock)) : String :=
  reconstructDocumentText (simpleCollect pages)

/-- Sort key of a processed block as a pair, for distinctness
hypotheses. -/
def blockKey (b : PBlock) : Nat × Int :=
  (b.page, b.y0)

/-! ### SectionProcessor: heading patterns
Embedding of the section heading regular expressions of
extract_sections (src/pre_processing/section_processor.py, lines
34-41) and of re.finditer over them with the MULTILINE and IGNORECASE
flags.  Each source pattern has the shape: start-of-line-or-newline,
an optional numeral with optional period and whitespace, a
case-insensitive alternation of heading vocabulary built from
literals, optional single letters, and whitespace gaps, then optional
whitespace and an end-of-line anchor.  The abstract syntax below
covers exactly these constructs, and the matcher follows the
backtracking preference order of the Python engine: alternatives left
to right, quantifiers greedy. -/

/-- Regular-expression fragment used by the heading patterns. -/
inductive RE where
  | eps : RE
  | lit : List Char → RE
  | opt : RE → RE
  | seq : RE → RE → RE
  | alt : RE → RE → RE
  | wsStar : RE
  | wsPlus : RE
  | eol : RE

/-- Consume a literal case-insensitively from the front of the input. -/
def litConsume : List Char → List Char → Option (List Char)
  | [], s => some s
  | _ :: _, [] => none
  | p :: ps, c :: cs => if lowerC p = lowerC c then litConsume ps cs else none

/-- Try the continuation after dropping n, n-1, ..., 1 characters, in
that order: the greedy backtracking of a whitespace quantifier whose
maximal run has length at least n. -/
def tryDropsFrom (s : List Char) (k : List Char → Option (List Char)) :
    Nat → Option (List Char)
  | 0 => none
  | n + 1 =>
    match k (s.drop (n + 1)) with
    | some r => some r
    | none => tryDropsFrom s k n

/-- Backtracking matcher in continuation style.  The continuation
receives the rest of the input after the fragment; the first
successful alternative in preference order wins, as in the Python
engine. -/
def matchRE : RE → List Char → (List Char → Option (List Char)) → Option (List Char)
  | .eps, s, k => k s
  | .lit p, s, k =>
    match litConsume p s with
    | some rest => k rest
    | none => none
  | .opt r, s, k =>
    match matchRE r s k with
    | some res => some res
    | none => k s
  | .seq r1 r2, s, k => matchRE r1 s (fun s1 => matchRE r2 s1 k)
  | .alt r1 r2, s, k =>
    match matchRE r1 s k with
    | some res => some res
    | none => matchRE r2 s k
  | .wsStar, s, k =>
    match tryDropsFrom s k (wsCount s) with
    | some res => some res
    | none => k s
  | .wsPlus, s, k => tryDropsFrom s k (wsCount s)
  | .eol, s, k =>
    match s with
    | [] => k s
    | c :: _ => if c = '\n' then k s else none

/-- Sequence of several fragments. -/
def seqAll : List RE → RE
  | [] => .eps
  | [r] => r
  | r :: rest => .seq r (seqAll rest)

/-- Alternation of several fragments, tried left to right. -/
def altAll : List RE → RE
  | [] => .eps
  | [r] => r
  | r :: rest => .alt r (altAll rest)

/-- Literal fragment from a string. -/
def litS (s : String) : RE := .lit s.data

/-- Optional trailing letter, the question mark on a final letter of a
vocabulary word in the source patterns. -/
def optC (c : Char) : RE := .opt (.lit [c])

/-- Optional numeral prefix of a heading pattern: the numeral, an
optional period, then optional whitespace. -/
def numPat (d : Char) : RE := .opt (seqAll [.lit [d], .opt (.lit ['.']), .wsStar])

/-- Full heading pattern body after the start anchor: optional numeral
prefix, vocabulary alternation, optional whitespace, end of line. -/
def headingPat (num : Option Char) (vocab : RE) : RE :=
  seqAll [(match num with | some d => numPat d | none => .eps), vocab, .wsStar, .eol]

/-- Vocabulary of the introduction pattern. -/
def vocabIntroduction : RE := altAll [litS "introduction", litS "intro"]

/-- Vocabulary of the experimental pattern, in source order. -/
def vocabExperimental : RE := altAll
  [ seqAll [litS "material", optC 's', .wsPlus, litS "and", .wsPlus, litS "method", optC 's']
  , seqAll [litS "method", optC 's', .wsPlus, litS "and", .wsPlus, litS "material", optC 's']
  , seqAll [litS "experimental", .wsPlus, litS "sectio", optC 'n']
  , litS "methodology"
  , litS "experimental"
  , seqAll [litS "method", optC 's']
  , seqAll [litS "material", optC 's'] ]

/-- Vocabulary of the results pattern. -/
def vocabResults : RE := altAll
  [ seqAll [litS "result", optC 's', .opt (seqAll [.wsPlus, litS "and", .wsPlus, litS "discussion"])]
  , litS "findings" ]

/-- Vocabulary of the discussion pattern. -/
def vocabDiscussion : RE := altAll
  [ litS "discussion"
  , seqAll [litS "discussion", .wsPlus, litS "of", .wsPlus, litS "result", optC 's'] ]

/-- Vocabulary of the conclusions pattern. -/
def vocabConclusions : RE := altAll
  [ seqAll [litS "conclusion", optC 's']
  , seqAll [litS "concluding", .wsPlus, litS "remark", optC 's']
  , litS "summary" ]

/-- Vocabulary of the references pattern. -/
def vocabReferences : RE := altAll
  [ seqAll [litS "reference", optC 's']
  , seqAll [litS "literature", .wsPlus, litS "cited"]
  , litS "bibliography" ]

/-- The section pattern table of extract_sections, in insertion order:
canonical name, numeral prefix, vocabulary. -/
def sectionPatterns : List (String × Option Char × RE) :=
  [ ("introduction", some '1', vocabIntroduction)
  , ("experimental", some '2', vocabExperimental)
  , ("results", some '3', vocabResults)
  , ("discussion", some '4', vocabDiscussion)
  , ("conclusions", some '5', vocabConclusions)
  , ("references", none, vocabReferences) ]

/-- Does a match of the body start at this position?  The leading group
start-of-line-or-newline is resolved here: the zero-width line-start
alternative is preferred, the newline-consuming alternative is the
fallback, as alternation order prescribes.  Returns the remaining
suffix after a successful match of the whole pattern. -/
def matchHeadingAt (body : RE) (text : List Char) (p : Nat) : Option (List Char) :=
  let s := text.drop p
  let lineStart := p = 0 || (text.getD (p - 1) ' ') = '\n'
  let viaStart := if lineStart then matchRE body s some else none
  match viaStart with
  | some r => some r
  | none =>
    match s with
    | '\n' :: rest => matchRE body rest some
    | _ => none

/-- One recorded boundary: canonical name, match end offset (stored
under the key start in the source) and match start offset (stored
under pattern_start). -/
structure SectionPos where
  name : String
  start : Nat
  patternStart : Nat
deriving DecidableEq, Repr

/-- Scanner with the non-overlapping semantics of re.finditer: try each
position left to right, and after a match resume at its end.  Fuel
bounds the number of steps by the text length. -/
def finditerGo (body : RE) (text : List Char) : Nat → Nat → List (Nat × Nat)
  | 0, _ => []
  | fuel + 1, p =>
    if p > text.length then []
    else
      match matchHeadingAt body text p with
      | some rest =>
        let e := text.length - rest.length
        if e > p then (p, e) :: finditerGo body text fuel e
        else finditerGo body text fuel (p + 1)
      | none => finditerGo body text fuel (p + 1)

/-- All matches of one heading pattern over the text, as pairs of match
start and match end. -/
def finditer (body : RE) (text : List Char) : List (Nat × Nat) :=
  finditerGo body text (text.length + 2) 0

/-- Embedding of SectionProcessor._find_section_positions: collect the
matches of every pattern in table order, record name, match end and
match start, and stable-sort by match start. -/
def findSectionPositions (text : List Char) : List SectionPos :=
  let positions := sectionPatterns.flatMap (fun pat =>
    (finditer (headingPat pat.2.1 pat.2.2) text).map (fun m =>
      { name := pat.1, start := m.2, patternStart := m.1 }))
  List.insertionSort (fun a b => a.patternStart ≤ b.patternStart) positions

/-! ### SectionProcessor: validation and section extraction
Embedding of SectionProcessor._validate_section_content
(src/pre_processing/section_processor.py, lines 116-138) and of the
span-extraction loop of extract_sections (lines 56-69). -/

/-- Search for a citation-style marker, the re.search of a bracketed
digit run or a parenthesised four-digit run in the references branch of
_validate_section_content. -/
def hasCitationMarker : List Char → Bool
  | [] => false
  | '[' :: rest =>
    let digits := rest.takeWhile isDigitC
    (!digits.isEmpty && rest.getD digits.length ' ' = ']') || hasCitationMarker rest
  | '(' :: rest =>
    (decide (4 ≤ rest.length) && (rest.take 4).all isDigitC && rest.getD 4 ' ' = ')')
      || hasCitationMarker rest
  | _ :: rest => hasCitationMarker rest

/-- Case-insensitive containment of a cue word, the Python containment
test against content.lower(). -/
def containsCue (content : List Char) (cue : String) : Bool :=
  containsSub cue.data (content.map lowerC)

/-- Embedding of SectionProcessor._validate_section_content.  The
branches test the literal names written in the source; the branch for
the name methods is kept exactly as written even though the pattern
table produces the name experimental. -/
def validateSectionContent (name : String) (content : List Char) : Bool :=
  if content.length < 100 then false
  else if name = "introduction" then
    containsCue content "background" || containsCue content "study" || containsCue content "aim"
  else if name = "methods" then
    containsCue content "experiment" || containsCue content "analysis" || containsCue content "protocol"
  else if name = "results" then
    containsCue content "fig" || containsCue content "table" || containsCue content "observed"
  else if name = "references" then
    hasCitationMarker content
  else true

/-- Python dict assignment on an association list: overwrite the value
of an existing key in place, otherwise append the new binding. -/
def setKV (k v : String) : List (String × String) → List (String × String)
  | [] => [(k, v)]
  | kv :: rest => if kv.1 = k then (k, v) :: rest else kv :: setKV k v rest

/-- Content slice of one boundary in the loop of extract_sections: the
text from the recorded start of this boundary up to the recorded start
field of the next boundary, or to the end of text for the last one,
stripped. -/
def sectionSpans (text : List Char) : List SectionPos → List (String × List Char)
  | [] => []
  | [p] => [(p.name, stripL ((text.drop p.start).take (text.length - p.start)))]
  | p :: q :: rest =>
    (p.name, stripL ((text.drop p.start).take (q.start - p.start))) ::
      sectionSpans text (q :: rest)

/-- Embedding of the section-extraction half of
SectionProcessor.extract_sections: find the sorted boundaries, slice
each content span, and keep the spans that validate, later validated
entries overwriting earlier ones under the same key. -/
def extractSectionsFromText (text : List Char) : List (String × String) :=
  (sectionSpans text (findSectionPositions text)).foldl
    (fun secs nc => if validateSectionContent nc.1 nc.2 then setKV nc.1 ⟨nc.2⟩ secs else secs)
    []

/-- Section extraction on strings. -/
def extractSections (s : String) : List (String × String) :=
  extractSectionsFromText s.data

/-- Lookup of a section in the extracted mapping. -/
def lookupSection (secs : List (String × String)) (name : String) : Option String :=
  match secs.find? (fun kv => kv.1 = name) with
  | some kv => some kv.2
  | none => none

/-! ### Auxiliary predicates and concrete inputs used by the claims -/

/-- ASCII uppercase letter test. -/
def isUpperA (c : Char) : Bool :=
  'A' ≤ c && c ≤ 'Z'

/-- No two adjacent whitespace characters. -/
def noAdjWs : List Char → Bool
  | [] => true
  | [_] => true
  | a :: b :: r => (!(isPyWs a && isPyWs b)) && noAdjWs (b :: r)

/-- Strict part of the reconstruction sort key. -/
def pageYLt (a b : PBlock) : Prop :=
  a.page < b.page ∨ (a.page = b.page ∧ a.y0 < b.y0)

/-- Containment of a section whose content contains a given substring
case-insensitively, for stating concrete extraction facts. -/
def sectionContains (secs : List (String × String)) (name sub : String) : Bool :=
  match lookupSection secs name with
  | some c => containsSub sub.data (c.data.map lowerC)
  | none => false

/-- Document text exercising the span-extraction loop: an introduction
heading, a filler sentence longer than one hundred characters that
mentions the word study, then a methods heading and a short tail. -/
def c1Text : String :=
  "Introduction\nThis study gives background material on membranes and ageing, with filler words to pass the length gate of one hundred characters in total.\nMethods\nSome further text follows here."

/-- The introduction content produced by the code on c1Text: the filler
sentence followed by the next heading line. -/
def c1CodeContent : String :=
  "This study gives background material on membranes and ageing, with filler words to pass the length gate of one hundred characters in total.\nMethods"

/-- The introduction content the claim prescribes on c1Text: the text
between the end of the introduction match and the start of the methods
match. -/
def c1SpecContent : String :=
  "\nThis study gives background material on membranes and ageing, with filler words to pass the length gate of one hundred characters in total."

/-- Document text exercising the validation gate: an experimental
heading followed by content of more than one hundred characters that
contains none of the cue substrings experiment, analysis, protocol. -/
def c2Text : String :=
  "Experimental\nMembrane fouling was measured across pressure gradients and compared with baseline recordings to assess degradation over time in repeated cycles."

/-- The experimental content produced by the code on c2Text. -/
def c2Content : String :=
  "Membrane fouling was measured across pressure gradients and compared with baseline recordings to assess degradation over time in repeated cycles."

instance : IsTotal RawBlock xyLe where
  total a b := by
    simp only [xyLe, xyLeB, Bool.or_eq_true, Bool.and_eq_true, decide_eq_true_eq]
    omega

instance : IsTrans RawBlock xyLe where
  trans a b c := by
    simp only [xyLe, xyLeB, Bool.or_eq_true, Bool.and_eq_true, decide_eq_true_eq]
    omega

instance : IsTotal PBlock pageYLe where
  total a b := by
    simp only [pageYLe, pageYLeB, Bool.or_eq_true, Bool.and_eq_true, decide_eq_true_eq]
    omega

instance : IsTrans PBlock pageYLe where
  trans a b c := by
    simp only [pageYLe, pageYLeB, Bool.or_eq_true, Bool.and_eq_true, decide_eq_true_eq]
    omega

/-! ## Theorems -/

/-- C3 counterexample.  The claim states that a block whose horizontal
start differs from the current column x-origin by exactly the
threshold of 300 is attached to the new column.  On the concrete input
of a block at x-origin 0 followed by a block at x-origin 300, the
grouping loop of _process_column_blocks produces a single column
holding both blocks: the difference of exactly 300 does not exceed the
threshold, so no flush occurs and no new column is started, refuting
the claim. -/
theorem C3_counterexample :
    processColumnBlocksCols [⟨0, 0, some [⟨["a"]⟩]⟩, ⟨300, 5, some [⟨["b"]⟩]⟩] 0 =
      [[⟨"a", 0, 0, 0⟩, ⟨"b", 300, 5, 0⟩]] ∧
    (processColumnBlocksCols [⟨0, 0, some [⟨["a"]⟩]⟩, ⟨300, 5, some [⟨["b"]⟩]⟩] 0).length = 1 := by
  decide

/-- C3 amended: during column grouping with the default threshold of
300 layout units, a textual block with non-blank text whose horizontal
start differs from the current column x-origin by exactly the
threshold is attached to the current column and no flush occurs,
because only a strictly greater difference triggers a flush. -/
theorem C3_boundary_block_stays_in_current_column
    (page : Nat) (st : ColState) (b : RawBlock) (ls : List RawLine)
    (h1 : b.lines = some ls)
    (h2 : (stripL (joinSpans ls).data).isEmpty = false)
    (h3 : (b.x0 - st.currentX).natAbs = columnWidth) :
    colStep page st b =
      { st with current := st.current ++ [⟨joinSpans ls, b.x0, b.y0, page⟩] } := by
  unfold colStep
  rw [h1]
  simp [h3, h2]

/-- C3 witness: the amended theorem applied to a concrete block at
horizontal start 300 against the initial column origin 0. -/
theorem C3_witness :
    colStep 0 ⟨[], [], 0⟩ ⟨300, 7, some [⟨["x"]⟩]⟩ =
      { processed := [], current := [] ++ [⟨joinSpans [⟨["x"]⟩], 300, 7, 0⟩], currentX := 0 } :=
  C3_boundary_block_stays_in_current_column 0 ⟨[], [], 0⟩ ⟨300, 7, some [⟨["x"]⟩]⟩
    [⟨["x"]⟩] rfl (by decide) (by decide)

/-- C9: when no heading pattern matches the linear document text, the
boundary list is empty and section extraction returns the empty
mapping.  The embedded extraction is a total function, so no other
failure signal is possible. -/
theorem C9_no_boundaries_empty_mapping :
    ∀ text : List Char, findSectionPositions text = [] → extractSectionsFromText text = [] := by
  intro text h
  unfold extractSectionsFromText
  rw [h]
  rfl

/-- C9 witness: a concrete text in which no heading pattern matches,
yielding the empty mapping. -/
theorem C9_witness :
    findSectionPositions "hello world".data = [] ∧
      extractSectionsFromText "hello world".data = [] :=
  have h : findSectionPositions "hello world".data = [] := by decide
  ⟨h, C9_no_boundaries_empty_mapping _ h⟩

/-- C1 code evaluation at the failing input.  On c1Text the code
assigns to the introduction boundary the content running to the end of
the methods match rather than to its start: the retained introduction
content is the filler sentence with the following heading line
appended, so the content contains the text of the following heading,
contrary to the claim. -/
theorem C1_code_eval :
    lookupSection (extractSections c1Text) "introduction" = some c1CodeContent ∧
      c1CodeContent ≠ (⟨stripL c1SpecContent.data⟩ : String) ∧
      sectionContains (extractSections c1Text) "introduction" "methods" = true := by
  decide

/-- C2 code evaluation at the failing input.  On c2Text the validation
gate retains the experimental span even though its content of length
at least 100 contains none of the cue substrings experiment, analysis,
protocol: the cue branch in _validate_section_content tests the name
methods, which the pattern table never produces. -/
theorem C2_code_eval :
    lookupSection (extractSections c2Text) "experimental" = some c2Content ∧
      100 ≤ c2Content.length ∧
      containsCue c2Content.data "experiment" = false ∧
      containsCue c2Content.data "analysis" = false ∧
      containsCue c2Content.data "protocol" = false := by
  decide

/-! ### Character-class lemmas for the paper-id invariant -/

theorem toNat_ofNat_valid (n : Nat) (h : n.isValidChar) : (Char.ofNat n).toNat = n := by
  simp [Char.ofNat, dif_pos h, Char.ofNatAux, Char.toNat, UInt32.toNat, BitVec.toNat_ofNatLt]

theorem lowerC_of_upper {c : Char} (h : isUpperA c = true) :
    (lowerC c).toNat = c.toNat + 32 ∧ 97 ≤ (lowerC c).toNat ∧ (lowerC c).toNat ≤ 122 := by
  simp only [isUpperA, Bool.and_eq_true, decide_eq_true_eq] at h
  have h1 : 65 ≤ c.toNat := h.1
  have h2 : c.toNat ≤ 90 := h.2
  have hval : (c.toNat + 32).isValidChar := Or.inl (by omega)
  have he : lowerC c = Char.ofNat (c.toNat + 32) := by
    unfold lowerC
    rw [if_pos]
    simp only [Bool.and_eq_true, decide_eq_true_eq]
    exact ⟨h.1, h.2⟩
  rw [he, toNat_ofNat_valid _ hval]
  omega

theorem lowerC_id_of_not_upper {c : Char} (h : isUpperA c = false) : lowerC c = c := by
  unfold lowerC
  rw [if_neg]
  intro hcontra
  rw [show ('A' ≤ c && c ≤ 'Z') = isUpperA c from rfl] at hcontra
  rw [h] at hcontra
  exact Bool.false_ne_true hcontra

theorem isUpperA_lowerC (c : Char) : isUpperA (lowerC c) = false := by
  by_cases h : isUpperA c = true
  · obtain ⟨-, h97, -⟩ := lowerC_of_upper h
    rw [Bool.eq_false_iff]
    intro hcontra
    simp only [isUpperA, Bool.and_eq_true, decide_eq_true_eq] at hcontra
    have : (lowerC c).toNat ≤ 90 := hcontra.2
    omega
  · rw [lowerC_id_of_not_upper (Bool.eq_false_iff.mpr h)]
    exact Bool.eq_false_iff.mpr h

theorem isWordChar_lowerC {c : Char} (h : isWordChar c = true) :
    isWordChar (lowerC c) = true := by
  by_cases hu : isUpperA c = true
  · obtain ⟨-, h97, h122⟩ := lowerC_of_upper hu
    simp only [isWordChar, isAlphaC, Bool.or_eq_true, Bool.and_eq_true, decide_eq_true_eq]
    have ha : 97 ≤ (lowerC c).toNat := h97
    have hb : (lowerC c).toNat ≤ 122 := h122
    exact Or.inl (Or.inl (Or.inl ⟨ha, hb⟩))
  · rw [lowerC_id_of_not_upper (Bool.eq_false_iff.mpr hu)]
    exact h

theorem isPyWs_cases {c : Char} (h : isPyWs c = true) :
    c = ' ' ∨ c = '\t' ∨ c = '\n' ∨ c = '\r' ∨ c = Char.ofNat 11 ∨ c = Char.ofNat 12 := by
  simp only [isPyWs, Bool.or_eq_true, decide_eq_true_eq] at h
  tauto

theorem lowerC_of_ws {c : Char} (h : isPyWs c = true) : lowerC c = c := by
  rcases isPyWs_cases h with h | h | h | h | h | h <;> subst h <;> decide

/-- C4 counterexample.  The claim states that the output of paper-id
standardization never contains a character outside the word-character
and hyphen set, in particular no tabs.  On the concrete input of the
letter a, a tab and the letter b, the tab character survives
standardization: the removal substitution keeps all whitespace while
only the space character is replaced by an underscore. -/
theorem C4_counterexample :
    standardizePaperId "a\tb" = "a\tb" ∧
      '\t' ∈ (standardizePaperId "a\tb").data ∧
      isWordChar '\t' = false ∧ '\t' ≠ '-' := by
  decide

/-- C4 amended: every character of the standardized paper id is a word
character, a hyphen, or a whitespace character other than the space;
the output contains no uppercase ASCII letter and no space (spaces
having been replaced by underscores).  The original claim must be
weakened exactly on non-space whitespace, which the removal step keeps
and the space replacement does not touch. -/
theorem C4_paper_id_characters :
    ∀ s : String,
      (standardizePaperId s).data.all
        (fun c => (isWordChar c || c == '-' || (isPyWs c && !(c == ' '))) &&
          !isUpperA c && !(c == ' ')) = true := by
  intro s
  rw [List.all_eq_true]
  intro c hc
  have hc' : c ∈ (s.data.filter paperIdKeep).map
      (fun d => if lowerC d = ' ' then '_' else lowerC d) := by
    simpa [standardizePaperId, standardizePaperIdL, List.map_map, Function.comp] using hc
  rw [List.mem_map] at hc'
  obtain ⟨d, hd, rfl⟩ := hc'
  have hkeep : paperIdKeep d = true := List.of_mem_filter hd
  simp only [paperIdKeep, Bool.or_eq_true] at hkeep
  rcases hkeep with (hw | hws) | hh
  · -- word character: lowercasing keeps it a word character
    have h1 : isWordChar (lowerC d) = true := isWordChar_lowerC hw
    have h2 : isUpperA (lowerC d) = false := isUpperA_lowerC d
    have h3 : ¬(lowerC d = ' ') := by
      intro he
      rw [he] at h1
      exact absurd h1 (by decide)
    rw [if_neg h3]
    simp [h1, h2, h3]
  · -- whitespace: lowercasing is the identity, space becomes underscore
    rw [lowerC_of_ws hws]
    rcases isPyWs_cases hws with h | h | h | h | h | h <;> subst h <;> decide
  · -- hyphen
    rw [decide_eq_true_eq] at hh
    subst hh
    decide

/-- C8: reference validation drops exactly the records with empty text,
preserves text and DOI of the retained records, and nulls a present
year exactly when the integer coercion fails or the value lies outside
1900..2025; concretely the years 1899 and 2026 are nulled and 2023 is
retained. -/
theorem C8_validate_references :
    (∀ refs : List RefRec,
      validateReferences refs = (refs.filter (fun r => !r.text.isEmpty)).map adjustYear) ∧
    (∀ r : RefRec, (adjustYear r).text = r.text ∧ (adjustYear r).doi = r.doi) ∧
    (∀ r : RefRec,
      (adjustYear r).year =
        match r.year with
        | none => none
        | some s =>
          if s.isEmpty then some s
          else match pyToInt s with
            | none => none
            | some y => if 1900 ≤ y ∧ y ≤ 2025 then some s else none) ∧
    adjustYear ⟨"t", none, some "1899"⟩ = ⟨"t", none, none⟩ ∧
    adjustYear ⟨"t", none, some "2026"⟩ = ⟨"t", none, none⟩ ∧
    adjustYear ⟨"t", none, some "2023"⟩ = ⟨"t", none, some "2023"⟩ := by
  refine ⟨?_, ?_, ?_, by decide, by decide, by decide⟩
  · intro refs
    induction refs with
    | nil => rfl
    | cons r rest ih =>
      cases h : r.text.isEmpty with
      | true => simp [validateReferences, h, ih]
      | false => simp [validateReferences, h, ih]
  · intro r
    obtain ⟨t, d, y⟩ := r
    cases y with
    | none => exact ⟨rfl, rfl⟩
    | some s =>
      simp only [adjustYear]
      split
      · exact ⟨rfl, rfl⟩
      · split
        · exact ⟨rfl, rfl⟩
        · split <;> exact ⟨rfl, rfl⟩
  · intro r
    obtain ⟨t, d, y⟩ := r
    cases y with
    | none => rfl
    | some s =>
      simp only [adjustYear]
      split
      · rfl
      · split
        · rfl
        · split <;> rfl

/-! ### Duplicate-removal lemmas for keyword cleaning -/

theorem mem_dedupFS {x : String} : ∀ {l : List String}, x ∈ dedupFS l → x ∈ l := by
  intro l
  induction l using dedupFS.induct with
  | case1 => intro h; simp [dedupFS] at h
  | case2 y ys ih =>
    intro h
    simp only [dedupFS] at h
    rcases List.mem_cons.mp h with h | h
    · exact h ▸ List.mem_cons_self _ _
    · exact List.mem_cons_of_mem _ (List.mem_of_mem_filter (ih h))

theorem nodup_dedupFS : ∀ l : List String, (dedupFS l).Nodup := by
  intro l
  induction l using dedupFS.induct with
  | case1 => simp [dedupFS]
  | case2 y ys ih =>
    simp only [dedupFS]
    refine List.Nodup.cons ?_ ih
    intro hmem
    have h := List.of_mem_filter (mem_dedupFS hmem)
    simp at h

theorem dedupSeen_eq_filter_dedupFS :
    ∀ (l : List String) (seen : List String),
      dedupSeen seen l = dedupFS (l.filter (fun y => !seen.contains y)) := by
  intro l
  induction l with
  | nil => intro seen; simp [dedupSeen, dedupFS]
  | cons x xs ih =>
    intro seen
    by_cases h : x ∈ seen
    · have hc : (!seen.contains x) = false := by simp [h]
      simp only [dedupSeen, if_pos h, List.filter_cons, hc]
      exact ih seen
    · have hc : (!seen.contains x) = true := by simp [h]
      simp only [dedupSeen, if_neg h, List.filter_cons, hc]
      rw [if_pos trivial]
      simp only [dedupFS]
      rw [ih (x :: seen)]
      congr 1
      rw [List.filter_filter]
      congr 1
      apply List.filter_congr
      intro y hy
      by_cases hxy : y = x <;> simp [hxy, List.contains_cons, Bool.and_comm]

theorem dedupSeen_nil_eq_dedupFS (l : List String) : dedupSeen [] l = dedupFS l := by
  rw [dedupSeen_eq_filter_dedupFS]
  congr 1
  apply List.filter_eq_self.mpr
  intro a _
  simp

/-- C7: keyword cleaning maps every incoming keyword through the
per-item pipeline of trimming, lowercasing, removal of one trailing
punctuation mark, whitespace collapsing and removal of one leading
article, discards results of length at most one, and removes
duplicates keeping the first occurrence: the result equals the
structural first-seen deduplication of the filtered item list, is
duplicate-free, and every output item is the cleaned form of some
input item with length greater than one.  The same holds for a single
delimited string after splitting on semicolons when present, otherwise
on commas. -/
theorem C7_clean_keywords :
    (∀ kws : List String,
      cleanKeywordsList kws =
        dedupFS ((kws.map cleanKeywordItem).filter (fun s => !s.isEmpty && s.length > 1))) ∧
    (∀ kws : List String, (cleanKeywordsList kws).Nodup) ∧
    (∀ kws : List String, ∀ x ∈ cleanKeywordsList kws,
      (∃ k ∈ kws, x = cleanKeywordItem k) ∧ x.length > 1) ∧
    (∀ s : String, ¬s.isEmpty →
      cleanKeywordsString s =
        cleanKeywordsList ((splitOnC (if s.data.contains ';' then ';' else ',') s.data).map
          (fun l => (⟨l⟩ : String)))) := by
  have hmain : ∀ kws : List String,
      cleanKeywordsList kws =
        dedupFS ((kws.map cleanKeywordItem).filter (fun s => !s.isEmpty && s.length > 1)) := by
    intro kws
    cases kws with
    | nil => simp [cleanKeywordsList, dedupFS]
    | cons k ks =>
      unfold cleanKeywordsList
      rw [if_neg (by simp)]
      exact dedupSeen_nil_eq_dedupFS _
  refine ⟨hmain, ?_, ?_, ?_⟩
  · intro kws
    rw [hmain]
    exact nodup_dedupFS _
  · intro kws x hx
    rw [hmain] at hx
    have h := mem_dedupFS hx
    have hmem := List.mem_of_mem_filter h
    have hpred := List.of_mem_filter h
    rw [List.mem_map] at hmem
    obtain ⟨k, hk, rfl⟩ := hmem
    simp only [Bool.and_eq_true, decide_eq_true_eq] at hpred
    exact ⟨⟨k, hk, rfl⟩, hpred.2⟩
  · intro s hs
    unfold cleanKeywordsString
    rw [if_neg hs]

/-- C5: the reconstructed linear text is the newline join of the block
texts arranged in an order that is a permutation of the input sorted
by page and vertical start; and for two blocks on page 0 at vertical
positions 100 and 50 the vertical-50 text precedes the vertical-100
text regardless of input order. -/
theorem C5_reconstruction_order :
    (∀ blocks : List PBlock, ∃ sortedBlocks : List PBlock,
        sortedBlocks.Perm blocks ∧ sortedBlocks.Sorted pageYLe ∧
        reconstructDocumentText blocks =
          ⟨joinWith ['\n'] (sortedBlocks.map (fun b => b.text.data))⟩) ∧
    (∀ b1 b2 : PBlock, b1.page = 0 → b1.y0 = 100 → b2.page = 0 → b2.y0 = 50 →
      reconstructDocumentText [b1, b2] = ⟨b2.text.data ++ '\n' :: b1.text.data⟩ ∧
      reconstructDocumentText [b2, b1] = ⟨b2.text.data ++ '\n' :: b1.text.data⟩) := by
  constructor
  · intro blocks
    exact ⟨List.insertionSort pageYLe blocks, List.perm_insertionSort pageYLe blocks,
      List.sorted_insertionSort pageYLe blocks, rfl⟩
  · intro b1 b2 h1 h2 h3 h4
    have hle12 : ¬ pageYLe b1 b2 := by
      unfold pageYLe pageYLeB
      rw [h1, h2, h3, h4]
      decide
    have hle21 : pageYLe b2 b1 := by
      unfold pageYLe pageYLeB
      rw [h1, h2, h3, h4]
      decide
    constructor
    · simp [reconstructDocumentText, List.insertionSort, List.orderedInsert,
        if_neg hle12, joinWith]
    · simp [reconstructDocumentText, List.insertionSort, List.orderedInsert,
        if_pos hle21, joinWith]

/-- C5 witness: two concrete blocks on page 0 at vertical positions
100 and 50; in both input orders the vertical-50 text comes first. -/
theorem C5_witness :
    reconstructDocumentText [⟨"hundred", 0, 100, 0⟩, ⟨"fifty", 5, 50, 0⟩] = "fifty\nhundred" ∧
      reconstructDocumentText [⟨"fifty", 5, 50, 0⟩, ⟨"hundred", 0, 100, 0⟩] = "fifty\nhundred" :=
  have h := C5_reconstruction_order.2 ⟨"hundred", 0, 100, 0⟩ ⟨"fifty", 5, 50, 0⟩ rfl rfl rfl rfl
  ⟨h.1.trans (by decide), h.2.trans (by decide)⟩

/-! ### Column-grouping refinement lemmas -/

theorem colStep_flatten (page : Nat) (st : ColState) (b : RawBlock) :
    (colStep page st b).processed ++ (colStep page st b).current =
      st.processed ++ st.current ++ (gBlock page b).toList := by
  unfold colStep gBlock
  cases b.lines with
  | none => simp
  | some ls =>
    by_cases hf : (b.x0 - st.currentX).natAbs > columnWidth <;>
      by_cases hb : (stripL (joinSpans ls).data).isEmpty <;>
      simp [hf, hb]

theorem foldl_colStep_flatten (page : Nat) :
    ∀ (l : List RawBlock) (st : ColState),
      (l.foldl (colStep page) st).processed ++ (l.foldl (colStep page) st).current =
        st.processed ++ st.current ++ l.filterMap (gBlock page) := by
  intro l
  induction l with
  | nil => intro st; simp
  | cons b rest ih =>
    intro st
    rw [List.foldl_cons, ih (colStep page st b), List.filterMap_cons]
    rw [colStep_flatten]
    cases gBlock page b <;> simp

theorem processColumnBlocks_eq_filterMap (blocks : List RawBlock) (page : Nat) :
    processColumnBlocks blocks page =
      (List.insertionSort xyLe blocks).filterMap (gBlock page) := by
  unfold processColumnBlocks
  rw [foldl_colStep_flatten]
  simp

theorem processColumnBlocks_perm (blocks : List RawBlock) (page : Nat) :
    (processColumnBlocks blocks page).Perm (blocks.filterMap (gBlock page)) := by
  rw [processColumnBlocks_eq_filterMap]
  exact (List.perm_insertionSort xyLe blocks).filterMap (gBlock page)

theorem collectAllBlocks_perm (pages : List (List RawBlock)) :
    (collectAllBlocks pages).Perm (simpleCollect pages) := by
  unfold collectAllBlocks simpleCollect
  induction pages.enum with
  | nil => simp
  | cons pg rest ih =>
    simp only [List.flatMap_cons]
    exact (processColumnBlocks_perm pg.2 pg.1).append ih

theorem pageYLe_of_lt_of_key_ne {a b : PBlock} (hle : pageYLe a b)
    (hne : blockKey a ≠ blockKey b) : pageYLt a b := by
  simp only [pageYLe, pageYLeB, Bool.or_eq_true, Bool.and_eq_true, decide_eq_true_eq] at hle
  simp only [blockKey, ne_eq, Prod.mk.injEq, not_and] at hne
  unfold pageYLt
  rcases hle with h | ⟨h1, h2⟩
  · exact Or.inl h
  · right
    refine ⟨h1, ?_⟩
    rcases lt_or_eq_of_le h2 with h | h
    · exact h
    · exact absurd h (hne h1)

theorem insertionSort_eq_of_perm_of_keys_nodup :
    ∀ l₁ l₂ : List PBlock, l₁.Perm l₂ → (l₁.map blockKey).Nodup →
      List.insertionSort pageYLe l₁ = List.insertionSort pageYLe l₂ := by
  intro l₁ l₂ hperm hnodup
  haveI : IsAntisymm PBlock (fun a b => pageYLt a b ∨ a = b) := by
    constructor
    intro a b hab hba
    rcases hab with hab | hab
    · rcases hba with hba | hba
      · unfold pageYLt at hab hba
        exfalso
        omega
      · exact hba.symm
    · exact hab
  have hpermS : (List.insertionSort pageYLe l₁).Perm (List.insertionSort pageYLe l₂) :=
    ((List.perm_insertionSort pageYLe l₁).trans hperm).trans
      (List.perm_insertionSort pageYLe l₂).symm
  have keyNodup : ∀ l : List PBlock, (l.map blockKey).Nodup →
      ∀ ls : List PBlock, ls.Perm l → ls.Sorted pageYLe →
        ls.Pairwise (fun a b => pageYLt a b ∨ a = b) := by
    intro l hl ls hp hs
    have hknd : (ls.map blockKey).Nodup := ((hp.map blockKey).nodup_iff).mpr hl
    have hkpw : ls.Pairwise (fun a b => blockKey a ≠ blockKey b) :=
      (List.pairwise_map).mp hknd
    exact (hs.and hkpw).imp (fun h => Or.inl (pageYLe_of_lt_of_key_ne h.1 h.2))
  exact List.eq_of_perm_of_sorted hpermS
    (keyNodup l₁ hnodup _ (List.perm_insertionSort pageYLe l₁)
      (List.sorted_insertionSort pageYLe l₁))
    (keyNodup l₁ hnodup _ ((List.perm_insertionSort pageYLe l₂).trans hperm.symm)
      (List.sorted_insertionSort pageYLe l₂))

/-- C10 counterexample.  The claim states that column grouping has no
observable effect on the reconstructed text for every per-page block
list.  On a page holding two blocks with equal vertical start 50, one
at horizontal start 400 and one at horizontal start 0, supplied in
that order, the pipeline text differs from the simple-collection text:
the column pass pre-sorts by horizontal position, and the final stable
sort cannot undo that reordering on blocks with equal sort keys. -/
theorem C10_counterexample :
    pipelineText [[⟨400, 50, some [⟨["beta"]⟩]⟩, ⟨0, 50, some [⟨["alpha"]⟩]⟩]] = "alpha\nbeta" ∧
      simpleText [[⟨400, 50, some [⟨["beta"]⟩]⟩, ⟨0, 50, some [⟨["alpha"]⟩]⟩]] = "beta\nalpha" ∧
      ("alpha\nbeta" : String) ≠ "beta\nalpha" := by
  decide

/-- C10 amended: the column-grouping pass has no observable effect on
the reconstructed document text provided the retained blocks carry
pairwise distinct page and vertical-start keys; without that proviso
the two procedures agree only up to the order of blocks with equal
keys, as the counterexample shows. -/
theorem C10_column_grouping_refinement :
    ∀ pages : List (List RawBlock),
      ((simpleCollect pages).map blockKey).Nodup →
      pipelineText pages = simpleText pages := by
  intro pages hnodup
  unfold pipelineText simpleText reconstructDocumentText
  rw [insertionSort_eq_of_perm_of_keys_nodup (collectAllBlocks pages) (simpleCollect pages)
    (collectAllBlocks_perm pages)
    (((collectAllBlocks_perm pages).map blockKey).nodup_iff.mpr hnodup)]

/-- C10 witness: one page with two textual blocks in separate columns
and distinct vertical starts; both procedures produce the same text. -/
theorem C10_witness :
    (((simpleCollect [[⟨400, 60, some [⟨["beta"]⟩]⟩, ⟨0, 50, some [⟨["alpha"]⟩]⟩]]).map
        blockKey).Nodup) ∧
      pipelineText [[⟨400, 60, some [⟨["beta"]⟩]⟩, ⟨0, 50, some [⟨["alpha"]⟩]⟩]] =
        simpleText [[⟨400, 60, some [⟨["beta"]⟩]⟩, ⟨0, 50, some [⟨["alpha"]⟩]⟩]] :=
  ⟨by decide, C10_column_grouping_refinement _ (by decide)⟩

/-! ### Whitespace-normalization lemmas for text cleaning -/


theorem replaceQuotes_id (l : List Char) : replaceQuotes l = l := by
  unfold replaceQuotes
  have h : ∀ c : Char, (if c = '"' then '"' else c) = c := by
    intro c
    by_cases hc : c = '"' <;> simp [hc]
  simp [h]

theorem mem_collapseWsAux {c : Char} :
    ∀ {l : List Char} {fl : Bool}, c ∈ collapseWsAux fl l → c = ' ' ∨ c ∈ l := by
  intro l
  induction l with
  | nil => intro fl h; simp [collapseWsAux] at h
  | cons d rest ih =>
    intro fl h
    simp only [collapseWsAux] at h
    by_cases hd : isPyWs d = true
    · rw [if_pos hd] at h
      cases fl with
      | true =>
        simp only [if_pos rfl] at h
        rcases ih h with h | h
        · exact Or.inl h
        · exact Or.inr (List.mem_cons_of_mem _ h)
      | false =>
        simp only [Bool.false_eq_true, if_neg (fun hcon => Bool.false_ne_true hcon)] at h
        rcases List.mem_cons.mp h with h | h
        · exact Or.inl h
        · rcases ih h with h | h
          · exact Or.inl h
          · exact Or.inr (List.mem_cons_of_mem _ h)
    · rw [if_neg hd] at h
      rcases List.mem_cons.mp h with h | h
      · exact Or.inr (h ▸ List.mem_cons_self _ _)
      · rcases ih h with h | h
        · exact Or.inl h
        · exact Or.inr (List.mem_cons_of_mem _ h)

theorem mem_collapseWs {c : Char} {l : List Char} (h : c ∈ collapseWs l) :
    c = ' ' ∨ c ∈ l :=
  mem_collapseWsAux h

theorem wsSpace_collapseWsAux :
    ∀ {l : List Char} {fl : Bool}, ∀ c ∈ collapseWsAux fl l, isPyWs c = true → c = ' ' := by
  intro l
  induction l with
  | nil => intro fl c h; simp [collapseWsAux] at h
  | cons d rest ih =>
    intro fl c h hc
    simp only [collapseWsAux] at h
    by_cases hd : isPyWs d = true
    · rw [if_pos hd] at h
      cases fl with
      | true =>
        simp only [if_pos rfl] at h
        exact ih c h hc
      | false =>
        simp only [Bool.false_eq_true, if_neg (fun hcon => Bool.false_ne_true hcon)] at h
        rcases List.mem_cons.mp h with h | h
        · exact h
        · exact ih c h hc
    · rw [if_neg hd] at h
      rcases List.mem_cons.mp h with h | h
      · exact absurd (h ▸ hc) hd
      · exact ih c h hc

theorem wsSpace_collapseWs {l : List Char} :
    ∀ c ∈ collapseWs l, isPyWs c = true → c = ' ' :=
  wsSpace_collapseWsAux

theorem dropWhile_ws_head {l : List Char} {d : Char} {t : List Char}
    (h : l.dropWhile isPyWs = d :: t) : isPyWs d = false := by
  induction l with
  | nil => simp at h
  | cons c rest ih =>
    rw [List.dropWhile_cons] at h
    by_cases hc : isPyWs c = true
    · rw [if_pos hc] at h
      exact ih h
    · rw [if_neg hc] at h
      injection h with h1 h2
      rw [← h1]
      exact Bool.eq_false_iff.mpr hc

theorem noAdjWs_tail {a : Char} {l : List Char} (h : noAdjWs (a :: l) = true) :
    noAdjWs l = true := by
  cases l with
  | nil => rfl
  | cons b r =>
    simp only [noAdjWs, Bool.and_eq_true] at h
    exact h.2

theorem noAdjWs_cons_of_head {a : Char} {l : List Char} (hl : noAdjWs l = true)
    (hhead : ∀ d, l.head? = some d → (isPyWs a && isPyWs d) = false) :
    noAdjWs (a :: l) = true := by
  cases l with
  | nil => rfl
  | cons b r =>
    simp only [noAdjWs, Bool.and_eq_true]
    refine ⟨?_, hl⟩
    have := hhead b rfl
    simp [this]

theorem noAdjWs_collapseWsAux :
    ∀ (l : List Char) (fl : Bool),
      noAdjWs (collapseWsAux fl l) = true ∧
        (fl = true → ∀ d, (collapseWsAux fl l).head? = some d → isPyWs d = false) := by
  intro l
  induction l with
  | nil =>
    intro fl
    exact ⟨rfl, fun _ d h => by simp [collapseWsAux] at h⟩
  | cons c rest ih =>
    intro fl
    by_cases hc : isPyWs c = true
    · cases fl with
      | true =>
        have hrw : collapseWsAux true (c :: rest) = collapseWsAux true rest := by
          simp [collapseWsAux, hc]
        constructor
        · rw [hrw]
          exact (ih true).1
        · intro _ d hd
          rw [hrw] at hd
          exact (ih true).2 rfl d hd
      | false =>
        have hrw : collapseWsAux false (c :: rest) = ' ' :: collapseWsAux true rest := by
          simp [collapseWsAux, hc]
        constructor
        · rw [hrw]
          apply noAdjWs_cons_of_head (ih true).1
          intro e he
          have := (ih true).2 rfl e he
          simp [this]
        · intro hfl
          exact absurd hfl (by simp)
    · have hrw : collapseWsAux fl (c :: rest) = c :: collapseWsAux false rest := by
        simp [collapseWsAux, hc]
      constructor
      · rw [hrw]
        apply noAdjWs_cons_of_head (ih false).1
        intro e he
        simp [Bool.eq_false_iff.mpr hc]
      · intro _ d hd
        rw [hrw, List.head?_cons, Option.some.injEq] at hd
        subst hd
        exact Bool.eq_false_iff.mpr hc

theorem noAdjWs_collapseWs (l : List Char) : noAdjWs (collapseWs l) = true :=
  (noAdjWs_collapseWsAux l false).1

theorem mem_dropTrailingWs {c : Char} : ∀ {l : List Char}, c ∈ dropTrailingWs l → c ∈ l := by
  intro l
  induction l with
  | nil => intro h; simp [dropTrailingWs] at h
  | cons d rest ih =>
    intro h
    simp only [dropTrailingWs] at h
    split at h
    · simp at h
    · rcases List.mem_cons.mp h with h | h
      · exact h ▸ List.mem_cons_self _ _
      · exact List.mem_cons_of_mem _ (ih h)

theorem dropTrailingWs_shape : ∀ {l : List Char} {d : Char} {t : List Char},
    dropTrailingWs l = d :: t → ∃ t' : List Char, l = d :: t' ∧ t = dropTrailingWs t' := by
  intro l d t h
  cases l with
  | nil => simp [dropTrailingWs] at h
  | cons c rest =>
    simp only [dropTrailingWs] at h
    split at h
    · simp at h
    · injection h with h1 h2
      exact ⟨rest, by rw [h1], h2.symm⟩

theorem noAdjWs_dropWhileWs : ∀ {l : List Char}, noAdjWs l = true →
    noAdjWs (l.dropWhile isPyWs) = true := by
  intro l
  induction l with
  | nil => intro h; exact h
  | cons c rest ih =>
    intro h
    rw [List.dropWhile_cons]
    by_cases hc : isPyWs c = true
    · rw [if_pos hc]
      exact ih (noAdjWs_tail h)
    · rw [if_neg hc]
      exact h

theorem noAdjWs_dropTrailingWs : ∀ {l : List Char}, noAdjWs l = true →
    noAdjWs (dropTrailingWs l) = true := by
  intro l
  induction l with
  | nil => intro h; exact h
  | cons c rest ih =>
    intro h
    simp only [dropTrailingWs]
    split
    · rfl
    · apply noAdjWs_cons_of_head (ih (noAdjWs_tail h))
      intro e he
      cases hm : dropTrailingWs rest with
      | nil => rw [hm] at he; simp at he
      | cons e0 t =>
        obtain ⟨t', ht', -⟩ := dropTrailingWs_shape hm
        rw [hm] at he
        rw [List.head?_cons, Option.some.injEq] at he
        subst he
        rw [ht'] at h
        cases hws : isPyWs c with
        | false => simp [hws]
        | true =>
          simp only [noAdjWs, Bool.and_eq_true] at h
          simpa [hws] using h.1

theorem getLast_dropTrailingWs : ∀ {l : List Char} {d : Char},
    (dropTrailingWs l).getLast? = some d → isPyWs d = false := by
  intro l
  induction l with
  | nil => intro d h; simp [dropTrailingWs] at h
  | cons c rest ih =>
    intro d h
    simp only [dropTrailingWs] at h
    split at h
    · simp at h
    · rename_i hcond
      cases hm : dropTrailingWs rest with
      | nil =>
        rw [hm] at h
        rw [List.getLast?_singleton, Option.some.injEq] at h
        subst h
        rw [hm] at hcond
        simp only [List.isEmpty_nil, Bool.true_and] at hcond
        exact Bool.eq_false_iff.mpr (by simpa using hcond)
      | cons e0 t =>
        rw [hm, List.getLast?_cons_cons] at h
        apply ih
        rw [hm]
        exact h

theorem collapseWsAux_fix :
    ∀ l : List Char, (∀ c ∈ l, isPyWs c = true → c = ' ') → noAdjWs l = true →
      collapseWsAux false l = l ∧
        ((∀ d, l.head? = some d → isPyWs d = false) → collapseWsAux true l = l) := by
  intro l
  induction l with
  | nil => exact fun _ _ => ⟨rfl, fun _ => rfl⟩
  | cons c rest ih =>
    intro hsp hadj
    obtain ⟨ihf, iht⟩ := ih (fun d hd => hsp d (List.mem_cons_of_mem _ hd)) (noAdjWs_tail hadj)
    by_cases hc : isPyWs c = true
    · have hc' : c = ' ' := hsp c (List.mem_cons_self _ _) hc
      have hrest : collapseWsAux true rest = rest := by
        apply iht
        intro d hd
        cases rest with
        | nil => simp at hd
        | cons e r =>
          rw [List.head?_cons, Option.some.injEq] at hd
          subst hd
          simp only [noAdjWs, Bool.and_eq_true] at hadj
          have h1 := hadj.1
          rw [hc] at h1
          simpa using h1
      constructor
      · subst hc'
        have hsw : isPyWs ' ' = true := by decide
        simp [collapseWsAux, hsw, hrest]
      · intro hhead
        have h0 := hhead c rfl
        rw [h0] at hc
        exact absurd hc (by simp)
    · constructor
      · simp [collapseWsAux, hc, ihf]
      · intro _
        simp [collapseWsAux, hc, ihf]

theorem collapseWs_fix (l : List Char)
    (hsp : ∀ c ∈ l, isPyWs c = true → c = ' ') (hadj : noAdjWs l = true) :
    collapseWs l = l :=
  (collapseWsAux_fix l hsp hadj).1

theorem dropTrailingWs_fix : ∀ l : List Char,
    (∀ d, l.getLast? = some d → isPyWs d = false) → dropTrailingWs l = l := by
  intro l
  induction l with
  | nil => intro _; rfl
  | cons c rest ih =>
    intro hlast
    simp only [dropTrailingWs]
    cases rest with
    | nil =>
      have hc : isPyWs c = false := hlast c (by simp)
      rw [if_neg]
      · rfl
      · simp [dropTrailingWs, hc]
    | cons e r =>
      have hrest : dropTrailingWs (e :: r) = e :: r := by
        apply ih
        intro d hd
        exact hlast d (by rw [List.getLast?_cons_cons]; exact hd)
      rw [hrest, if_neg (by simp)]

theorem stripL_fix : ∀ l : List Char,
    (∀ d, l.head? = some d → isPyWs d = false) →
    (∀ d, l.getLast? = some d → isPyWs d = false) → stripL l = l := by
  intro l hhead hlast
  unfold stripL dropLeadingWs
  have hdrop : l.dropWhile isPyWs = l := by
    cases l with
    | nil => rfl
    | cons c rest =>
      rw [List.dropWhile_cons, if_neg]
      have := hhead c rfl
      simp [this]
  rw [hdrop]
  exact dropTrailingWs_fix l hlast

theorem stripL_head_not_ws : ∀ {l : List Char} {d : Char},
    (stripL l).head? = some d → isPyWs d = false := by
  intro l d h
  unfold stripL dropLeadingWs at h
  cases hm : dropTrailingWs (l.dropWhile isPyWs) with
  | nil => rw [hm] at h; simp at h
  | cons e t =>
    obtain ⟨t', ht', -⟩ := dropTrailingWs_shape hm
    rw [hm, List.head?_cons, Option.some.injEq] at h
    subst h
    exact dropWhile_ws_head ht'

theorem mem_stripL {c : Char} {l : List Char} (h : c ∈ stripL l) : c ∈ l := by
  unfold stripL dropLeadingWs at h
  exact List.dropWhile_subset _ (mem_dropTrailingWs h)

theorem cleanTextL_idem_of_allowed (l : List Char)
    (hall : ∀ c ∈ l, cleanTextKeep c = true) :
    cleanTextL (cleanTextL l) = cleanTextL l := by
  have keepColl : ∀ c ∈ collapseWs l, cleanTextKeep c = true := by
    intro c hc
    rcases mem_collapseWs hc with h | h
    · subst h; decide
    · exact hall c h
  have hfilter : (collapseWs l).filter cleanTextKeep = collapseWs l :=
    List.filter_eq_self.mpr keepColl
  have hclean : cleanTextL l = if l.isEmpty then [] else stripL (collapseWs l) := by
    unfold cleanTextL
    rw [hfilter, replaceQuotes_id]
  rw [hclean]
  by_cases hle : l.isEmpty
  · rw [if_pos hle]
    rfl
  · rw [if_neg hle]
    by_cases hte : (stripL (collapseWs l)).isEmpty
    · rw [List.isEmpty_iff] at hte
      rw [hte]
      rfl
    · have keepT : ∀ c ∈ stripL (collapseWs l), cleanTextKeep c = true := by
        intro c hc
        exact keepColl c (mem_stripL hc)
      have keepCollT : ∀ c ∈ collapseWs (stripL (collapseWs l)), cleanTextKeep c = true := by
        intro c hc
        rcases mem_collapseWs hc with h | h
        · subst h; decide
        · exact keepT c h
      have hcleanT : cleanTextL (stripL (collapseWs l)) =
          if (stripL (collapseWs l)).isEmpty then []
          else stripL (collapseWs (stripL (collapseWs l))) := by
        unfold cleanTextL
        rw [List.filter_eq_self.mpr keepCollT, replaceQuotes_id]
      rw [hcleanT, if_neg hte]
      have hcoll : collapseWs (stripL (collapseWs l)) = stripL (collapseWs l) := by
        apply collapseWs_fix
        · intro c hc hws
          exact wsSpace_collapseWs c (mem_stripL hc) hws
        · exact noAdjWs_dropTrailingWs (noAdjWs_dropWhileWs (noAdjWs_collapseWs l))
      rw [hcoll]
      apply stripL_fix
      · intro d hd
        exact stripL_head_not_ws hd
      · intro d hd
        exact getLast_dropTrailingWs hd

/-- C6 counterexample.  Text cleaning is not idempotent: on the input
of the letter a, a space, an at-sign, a space and the letter b, the
first application removes the at-sign after whitespace collapsing and
leaves two adjacent spaces, while the second application collapses
them to one. -/
theorem C6_counterexample :
    cleanText "a @ b" = "a  b" ∧ cleanText (cleanText "a @ b") = "a b" ∧
      cleanText (cleanText "a @ b") ≠ cleanText "a @ b" := by
  decide

/-- C6 amended: text cleaning is idempotent on every input string all
of whose characters lie in the allow-set of word characters,
whitespace and the punctuation kept by the cleaning substitution; the
failure witnessed by the counterexample occurs only when a removed
character separates two whitespace runs. -/
theorem C6_cleanText_idempotent_on_allowed :
    ∀ s : String, s.data.all cleanTextKeep = true →
      cleanText (cleanText s) = cleanText s := by
  intro s hall
  rw [List.all_eq_true] at hall
  have key : cleanTextL (cleanTextL s.data) = cleanTextL s.data :=
    cleanTextL_idem_of_allowed s.data hall
  show String.mk (cleanTextL (cleanText s).data) = String.mk (cleanTextL s.data)
  have hdata : (cleanText s).data = cleanTextL s.data := rfl
  rw [hdata]
  exact congrArg String.mk key

/-- C6 witness: a concrete all-allowed input on which the amended
idempotence theorem applies. -/
theorem C6_witness :
    ("ab  cd.".data.all cleanTextKeep = true) ∧
      cleanText (cleanText "ab  cd.") = cleanText "ab  cd." :=
  ⟨by decide, C6_cleanText_idempotent_on_allowed "ab  cd." (by decide)⟩

/-- C7 witness: the keyword theorem applied to a concrete delimited
string and to a concrete member of a cleaned list. -/
theorem C7_witness :
    cleanKeywordsString "Machine Learning;machine learning.;The AI" =
      cleanKeywordsList (((splitOnC ';' "Machine Learning;machine learning.;The AI".data)).map
        (fun l => (⟨l⟩ : String))) ∧
      ((∃ k ∈ ["Machine Learning", "AI"], "machine learning" = cleanKeywordItem k) ∧
        ("machine learning").length > 1) :=
  ⟨by
    have h := C7_clean_keywords.2.2.2 "Machine Learning;machine learning.;The AI" (by decide)
    rw [h]
    rfl,
   C7_clean_keywords.2.2.1 ["Machine Learning", "AI"] "machine learning" (by decide)⟩

end MembraneAgeing
